import Mathlib

/-!
Shallow embedding of mosaic-core's key and tag-set modules
(`src/keys.rs`, `src/tag_set.rs`).

Byte buffers are modelled as `List Nat`; machine bytes never overflow in
the modelled paths, so no modular reduction is needed (XOR on `Nat`
agrees with XOR on bytes for values below 256, and no arithmetic other
than XOR touches byte values).

External collaborators (the scrypt key-derivation primitive, the z32
text codec, the ed25519 curve validation) are parametrised as structures
whose fields record exactly the interface contract the code relies on.
-/

/-- Error kinds of `InnerError` that the modelled paths can produce. -/
inductive Error
  | endOfInput
  | invalidKey
  | invalidPrintable
  | keyLength
  | badEncryptedSecretKey
  | unsupportedEncryptedSecretKeyVersion (b : Nat)
  | scryptParams
  | z32Decode
deriving DecidableEq, Repr

/-- Modelled from the spec: the `Tag` type and `Tag::from_bytes` live in
`src/tag.rs`, which is not part of the provided sources; only the spec
(§4.4) describes them.  A record starts with a 2-byte little-endian
total-length field, then a 2-byte little-endian type field, then the
payload.  Parsing fails if the buffer has fewer than 4 bytes, or the
declared length is less than 4, or exceeds the buffer length; on success
the view is exactly the first `length` bytes. -/
def Tag.fromBytes : List Nat → Option (List Nat)
  | b0 :: b1 :: b2 :: b3 :: rest =>
    let buffer := b0 :: b1 :: b2 :: b3 :: rest
    let len := b0 + 256 * b1
    if len < 4 then none
    else if buffer.length < len then none
    else some (buffer.take len)
  | _ => none

/-- Modelled from the spec: `Tag::get_type` reads the 2-byte
little-endian type field at offset 2. -/
def Tag.get_type (t : List Nat) : Nat :=
  t.getD 2 0 + 256 * t.getD 3 0

/-- Modelled from the spec: `Tag::data_bytes` is the payload after the
4-byte header. -/
def Tag.data_bytes (t : List Nat) : List Nat :=
  t.drop 4

/-- The invariant every Rust `Tag` value satisfies: at least 4 bytes and
the little-endian length field equals the encoded length. -/
def IsTag (t : List Nat) : Prop :=
  4 ≤ t.length ∧ t.getD 0 0 + 256 * t.getD 1 0 = t.length

instance (t : List Nat) : Decidable (IsTag t) := by
  unfold IsTag; infer_instance

theorem Tag.fromBytes_some {b t : List Nat} (h : Tag.fromBytes b = some t) :
    IsTag t ∧ 4 ≤ t.length ∧ t.length ≤ b.length ∧ b.take t.length = t := by
  match b with
  | [] => simp [Tag.fromBytes] at h
  | [b0] => simp [Tag.fromBytes] at h
  | [b0, b1] => simp [Tag.fromBytes] at h
  | [b0, b1, b2] => simp [Tag.fromBytes] at h
  | b0 :: b1 :: b2 :: b3 :: rest =>
    simp only [Tag.fromBytes] at h
    by_cases h4 : b0 + 256 * b1 < 4
    · rw [if_pos h4] at h; exact absurd h (by simp)
    · by_cases hlen : (b0 :: b1 :: b2 :: b3 :: rest).length < b0 + 256 * b1
      · rw [if_neg h4, if_pos hlen] at h; exact absurd h (by simp)
      · rw [if_neg h4, if_neg hlen, Option.some.injEq] at h
        have h40 : 4 ≤ b0 + 256 * b1 := by omega
        rcases Nat.exists_eq_add_of_le h40 with ⟨k, hk⟩
        have hk2 : k ≤ rest.length := by
          simp only [List.length_cons] at hlen; omega
        have htake : List.take (b0 + 256 * b1) (b0 :: b1 :: b2 :: b3 :: rest)
            = b0 :: b1 :: b2 :: b3 :: List.take k rest := by
          rw [hk, show 4 + k = k + 1 + 1 + 1 + 1 from by omega]
          simp [List.take_succ_cons]
        rw [htake] at h
        subst h
        have hlt : (b0 :: b1 :: b2 :: b3 :: List.take k rest).length = b0 + 256 * b1 := by
          simp only [List.length_cons, List.length_take]
          omega
        refine ⟨⟨?_, ?_⟩, ?_, ?_, ?_⟩
        · simp only [List.length_cons]; omega
        · simp only [List.getD_cons_zero, List.getD_cons_succ]
          omega
        · simp only [List.length_cons]; omega
        · simp only [List.length_cons, List.length_take] at hlt ⊢
          omega
        · rw [hlt, htake]

theorem Tag.fromBytes_isTag {t : List Nat} (ht : IsTag t) (r : List Nat) :
    Tag.fromBytes (t ++ r) = some t := by
  obtain ⟨hlen, hfield⟩ := ht
  match t with
  | t0 :: t1 :: t2 :: t3 :: tr =>
    simp only [List.getD_cons_zero, List.getD_cons_succ, List.length_cons] at hfield
    simp only [List.cons_append, Tag.fromBytes]
    have h4 : ¬ (t0 + 256 * t1 < 4) := by
      simp only [List.length_cons] at hlen ⊢; omega
    have hge : ¬ ((t0 :: t1 :: t2 :: t3 :: (tr ++ r)).length < t0 + 256 * t1) := by
      simp only [List.length_cons, List.length_append]
      omega
    rw [if_neg h4, if_neg hge]
    congr 1
    have : t0 + 256 * t1 = (t0 :: t1 :: t2 :: t3 :: tr).length := by
      simp only [List.length_cons]; omega
    rw [this]
    have := List.take_left (t0 :: t1 :: t2 :: t3 :: tr) r
    simpa using this
  | [] => simp at hlen
  | [t0] => simp at hlen
  | [t0, t1] => simp at hlen
  | [t0, t1, t2] => simp at hlen

theorem isTag_length_pos {t : List Nat} (ht : IsTag t) : 0 < t.length := by
  obtain ⟨h, _⟩ := ht; omega

/-- The loop body of `TagSet::from_bytes` (src/tag_set.rs:40-47).  The
Rust loop keeps the whole `input` and a cursor `p`; here `rest` stands
for `input[p..]`, so `Tag::from_bytes(&input[p..])` is
`Tag.fromBytes rest`, `p += len` is `rest.drop tag.length`, and the exit
test `input.len() == p` is `rest.length = tag.length` (the remaining
suffix is exactly the parsed record). -/
def TagSet.parseLoop (rest : List Nat) : Except Error Unit :=
  match h : Tag.fromBytes rest with
  | none => .error .endOfInput
  | some tag =>
    if rest.length = tag.length then .ok ()
    else TagSet.parseLoop (rest.drop tag.length)
termination_by rest.length
decreasing_by
  obtain ⟨_, h4, hle, _⟩ := Tag.fromBytes_some h
  simp only [List.length_drop]
  omega

/-- Embeds `TagSet::from_bytes` (src/tag_set.rs:33-48): reject buffers shorter
than 3 bytes, then run the parse loop from offset 0; on success the view
is the whole input. -/
def TagSet.from_bytes (input : List Nat) : Except Error (List Nat) :=
  if input.length < 3 then .error .endOfInput
  else
    match TagSet.parseLoop input with
    | .ok () => .ok input
    | .error e => .error e

/-- Embeds `OwnedTagSet::new` (src/tag_set.rs:125-127): the empty buffer. -/
def OwnedTagSet.new : List Nat := []

/-- Embeds `OwnedTagSet::add_tag` (src/tag_set.rs:142-144): extend the owned
buffer by the tag's encoded bytes. -/
def OwnedTagSet.add_tag (buf tag : List Nat) : List Nat := buf ++ tag

/-- A sequence of `add_tag` calls starting from `OwnedTagSet::new`, as
`OwnedTagSet::from_tags` performs (src/tag_set.rs:130-139). -/
def OwnedTagSet.buildFrom (tags : List (List Nat)) : List Nat :=
  tags.foldl OwnedTagSet.add_tag OwnedTagSet.new

/-- Full iteration of `TagSetIter::next` (src/tag_set.rs:101-109).
`rest` stands for `self.bytes[self.p..]`; the guard
`self.p >= self.bytes.len()` is `rest.isEmpty`.  The `.unwrap()` on
`Tag::from_bytes` panics when the parse fails; that branch is modelled
as the result `none`, while `some ts` means the iterator yields exactly
the tags `ts` and then returns `None` without panicking. -/
def TagSet.iterAll (rest : List Nat) : Option (List (List Nat)) :=
  if rest.isEmpty then some []
  else
    match h : Tag.fromBytes rest with
    | none => none
    | some tag => (TagSet.iterAll (rest.drop tag.length)).map (fun ts => tag :: ts)
termination_by rest.length
decreasing_by
  obtain ⟨_, h4, hle, _⟩ := Tag.fromBytes_some h
  simp only [List.length_drop]
  omega

/-- A buffer that is an exact back-to-back concatenation of zero-or-more
valid `Tag` records. -/
inductive TagConcat : List Nat → Prop
  | nil : TagConcat []
  | cons {t rest : List Nat} : IsTag t → TagConcat rest → TagConcat (t ++ rest)

theorem tagConcat_length {b : List Nat} (hb : TagConcat b) (hne : b ≠ []) :
    4 ≤ b.length := by
  cases hb with
  | nil => exact absurd rfl hne
  | cons ht hc =>
    rename_i t rest
    obtain ⟨h4, _⟩ := ht
    simp only [List.length_append]
    omega

theorem tagConcat_exists {b : List Nat} (hb : TagConcat b) :
    ∃ ts : List (List Nat), b = ts.flatten ∧ ∀ t ∈ ts, IsTag t := by
  induction hb with
  | nil => exact ⟨[], rfl, by simp⟩
  | cons ht _ ih =>
    rename_i t rest hc
    obtain ⟨ts, hflat, hall⟩ := ih
    refine ⟨t :: ts, by simp [hflat], ?_⟩
    intro u hu
    rcases List.mem_cons.mp hu with h | h
    · exact h ▸ ht
    · exact hall u h

theorem TagSet.parseLoop_ok_aux :
    ∀ (n : Nat) (rest : List Nat), rest.length ≤ n →
      TagSet.parseLoop rest = .ok () → TagConcat rest ∧ rest ≠ [] := by
  intro n
  induction n with
  | zero =>
    intro rest h0 h
    have : rest = [] := List.eq_nil_of_length_eq_zero (by omega)
    subst this
    simp [TagSet.parseLoop, Tag.fromBytes] at h
  | succ n ih =>
    intro rest hle h
    rw [TagSet.parseLoop] at h
    split at h
    · exact absurd h (by simp)
    · rename_i tag hfb
      obtain ⟨htag, h4, hlt, htake⟩ := Tag.fromBytes_some hfb
      split at h
      · rename_i hlen
        have : rest = tag := by
          rw [← htake, ← hlen, List.take_length]
        subst this
        refine ⟨?_, ?_⟩
        · have := TagConcat.cons htag TagConcat.nil
          simpa using this
        · intro hc; subst hc; simp at h4
      · rename_i hlen
        have hdec : (rest.drop tag.length).length ≤ n := by
          simp only [List.length_drop]; omega
        obtain ⟨hc, hne⟩ := ih _ hdec h
        have hsplit : rest = tag ++ rest.drop tag.length := by
          conv_lhs => rw [← List.take_append_drop tag.length rest]
          rw [htake]
        refine ⟨?_, ?_⟩
        · rw [hsplit]; exact TagConcat.cons htag hc
        · intro hrest; subst hrest
          simp only [List.length_nil] at hlt
          omega

theorem TagSet.parseLoop_ok {rest : List Nat} (h : TagSet.parseLoop rest = .ok ()) :
    TagConcat rest ∧ rest ≠ [] :=
  TagSet.parseLoop_ok_aux rest.length rest (Nat.le_refl _) h

theorem TagSet.parseLoop_of_tagConcat {rest : List Nat} (hc : TagConcat rest)
    (hne : rest ≠ []) : TagSet.parseLoop rest = .ok () := by
  induction hc with
  | nil => exact absurd rfl hne
  | cons ht hc ih =>
    rename_i t l
    rw [TagSet.parseLoop]
    split
    · rename_i hfb
      rw [Tag.fromBytes_isTag ht l] at hfb
      exact absurd hfb (by simp)
    · rename_i tag hfb
      rw [Tag.fromBytes_isTag ht l] at hfb
      injection hfb with hfb
      subst hfb
      by_cases hl : l = []
      · subst hl
        rw [if_pos (by simp)]
      · rw [if_neg ?_]
        · rw [List.drop_left]
          exact ih hl
        · simp only [List.length_append]
          intro hcontra
          exact hl (List.eq_nil_of_length_eq_zero (by omega))

theorem TagSet.parseLoop_append {b : List Nat} (hb : TagConcat b) {r : List Nat}
    (hr : r ≠ []) : TagSet.parseLoop (b ++ r) = TagSet.parseLoop r := by
  induction hb with
  | nil => rw [List.nil_append]
  | cons ht hc ih =>
    rename_i t l
    rw [List.append_assoc, TagSet.parseLoop]
    split
    · rename_i hfb
      rw [Tag.fromBytes_isTag ht (l ++ r)] at hfb
      exact absurd hfb (by simp)
    · rename_i tag hfb
      rw [Tag.fromBytes_isTag ht (l ++ r)] at hfb
      injection hfb with hfb
      subst hfb
      rw [if_neg ?_]
      · rw [List.drop_left]
        exact ih
      · simp only [List.length_append]
        have : 0 < r.length := List.length_pos.mpr hr
        omega

/-- The one-or-more-records characterisation of `TagSet::from_bytes`. -/
theorem TagSet.from_bytes_ok_iff (b : List Nat) :
    TagSet.from_bytes b = .ok b ↔ TagConcat b ∧ b ≠ [] := by
  constructor
  · intro h
    rw [TagSet.from_bytes] at h
    split at h
    · exact absurd h (by simp)
    · revert h
      split
      · intro _
        exact TagSet.parseLoop_ok (by assumption)
      · intro h
        exact absurd h (by simp)
  · intro ⟨hc, hne⟩
    have h4 := tagConcat_length hc hne
    rw [TagSet.from_bytes, if_neg (by omega),
      TagSet.parseLoop_of_tagConcat hc hne]

theorem TagSet.from_bytes_ok_eq {b r : List Nat} (h : TagSet.from_bytes b = .ok r) :
    r = b := by
  rw [TagSet.from_bytes] at h
  split at h
  · exact absurd h (by simp)
  · revert h
    split
    · intro h
      injection h with h
      exact h.symm
    · intro h
      exact absurd h (by simp)

theorem TagSet.iterAll_flatten :
    ∀ ts : List (List Nat), (∀ t ∈ ts, IsTag t) → TagSet.iterAll ts.flatten = some ts := by
  intro ts
  induction ts with
  | nil => intro _; rw [TagSet.iterAll]; rfl
  | cons t ts ih =>
    intro hall
    have ht : IsTag t := hall t (by simp)
    have hts : ∀ u ∈ ts, IsTag u := fun u hu => hall u (by simp [hu])
    have h0 := isTag_length_pos ht
    rw [List.flatten_cons, TagSet.iterAll]
    rw [if_neg ?_]
    · split
      · rename_i hfb
        rw [Tag.fromBytes_isTag ht ts.flatten] at hfb
        exact absurd hfb (by simp)
      · rename_i tag hfb
        rw [Tag.fromBytes_isTag ht ts.flatten] at hfb
        injection hfb with hfb
        subst hfb
        rw [List.drop_left, ih hts]
        rfl
    · simp only [List.isEmpty_iff, ← List.length_eq_zero]
      simp only [List.length_append]
      omega

/-- The scrypt collaborator (the `scrypt` crate), as `keys.rs` uses it:
`paramsValid logN` models whether `scrypt::Params::new(log_n, 8, 1, 32)`
succeeds (the other cost sub-parameters are the fixed constants 8, 1 and
output length 32), and `derive pw salt logN` models
`scrypt::scrypt(password, salt, params, &mut key)` filling a 32-byte
key; `derive_len` records that the fixed 32-byte output length is always
valid, which is why the `.unwrap()` on the scrypt call cannot fail. -/
structure ScryptModel where
  paramsValid : Nat → Bool
  derive : List Nat → List Nat → Nat → List Nat
  derive_len : ∀ pw salt logN, (derive pw salt logN).length = 32

/-- Embeds `EncryptedSecretKey::from_secret_key` (src/keys.rs:193-228).  The
16 random bytes drawn from the csprng into `output[2..18]` are passed as
`salt`; the envelope is `[version 1, log_n] ++ salt ++ (derived key XOR
secret key)`. -/
def EncryptedSecretKey.from_secret_key (S : ScryptModel) (secret_key : List Nat)
    (password : List Nat) (log_n : Nat) (salt : List Nat) :
    Except Error (List Nat) :=
  if S.paramsValid log_n then
    let symmetric_key := S.derive password salt log_n
    let xor_output := List.zipWith Nat.xor symmetric_key secret_key
    .ok (1 :: log_n :: (salt ++ xor_output))
  else .error .scryptParams

/-- Embeds `EncryptedSecretKey::to_secret_key` (src/keys.rs:231-257): length
guard, version guard, re-derive the symmetric key from the stored salt
and cost byte, XOR it with bytes 18..50 and return the result
unconditionally. -/
def EncryptedSecretKey.to_secret_key (S : ScryptModel) (env : List Nat)
    (password : List Nat) : Except Error (List Nat) :=
  if env.length ≠ 50 then .error .badEncryptedSecretKey
  else if env.getD 0 0 ≠ 1 then
    .error (.unsupportedEncryptedSecretKeyVersion (env.getD 0 0))
  else
    let log_n := env.getD 1 0
    let salt := (env.drop 2).take 16
    if S.paramsValid log_n then
      let symmetric_key := S.derive password salt log_n
      .ok (List.zipWith Nat.xor symmetric_key (env.drop 18))
    else .error .scryptParams

/-- The z32 collaborator (the `z32` crate): an encode/decode pair on
byte strings (printable text handled at the byte level), with the
codec's round-trip contract. -/
structure Z32Model where
  encode : List Nat → List Nat
  decode : List Nat → Except Error (List Nat)
  decode_encode : ∀ b, decode (encode b) = .ok b

/-- The ed25519 collaborator: `valid b` models whether
`DalekVerifyingKey::from_bytes(b)` succeeds (curve validation). -/
structure CurveModel where
  valid : List Nat → Bool

/-- Embeds `str::starts_with` on byte strings. -/
def startsWith (p s : List Nat) : Bool :=
  s.take p.length == p

/-- The ASCII bytes of the fixed text head `mopub0` of public keys. -/
def moPubBytes : List Nat := [109, 111, 112, 117, 98, 48]

/-- Embeds `PublicKey::from_bytes` (src/keys.rs:45-48): succeeds exactly when
curve validation accepts the 32 bytes. -/
def PublicKey.from_bytes (C : CurveModel) (bytes : List Nat) :
    Except Error (List Nat) :=
  if C.valid bytes then .ok bytes else .error .invalidKey

/-- Embeds `PublicKey::printable` (src/keys.rs:63-65): the fixed text head
followed by the z32 encoding of the 32 key bytes. -/
def PublicKey.printable (Z : Z32Model) (k : List Nat) : List Nat :=
  moPubBytes ++ Z.encode k

/-- Embeds `PublicKey::from_printable` (src/keys.rs:72-81): check the text
head, z32-decode the remainder, require exactly 32 bytes, then apply
the same curve validation as `from_bytes`. -/
def PublicKey.from_printable (Z : Z32Model) (C : CurveModel) (s : List Nat) :
    Except Error (List Nat) :=
  if startsWith moPubBytes s = false then .error .invalidPrintable
  else
    match Z.decode (s.drop 6) with
    | .error e => .error e
    | .ok bytes =>
      if bytes.length = 32 then PublicKey.from_bytes C bytes
      else .error .keyLength

theorem zipWith_xor_cancel :
    ∀ (d k : List Nat), d.length = k.length →
      List.zipWith Nat.xor d (List.zipWith Nat.xor d k) = k := by
  intro d
  induction d with
  | nil =>
    intro k hk
    have : k = [] := List.eq_nil_of_length_eq_zero (by simp at hk; omega)
    subst this; rfl
  | cons a d ih =>
    intro k hk
    match k with
    | [] => simp at hk
    | b :: k =>
      simp only [List.zipWith_cons_cons, List.cons.injEq]
      refine ⟨Nat.xor_cancel_left a b, ih k ?_⟩
      simp only [List.length_cons] at hk
      omega

theorem zipWith_xor_inj :
    ∀ (d1 d2 k : List Nat), d1.length = k.length → d2.length = k.length →
      List.zipWith Nat.xor d2 (List.zipWith Nat.xor d1 k) = k → d2 = d1 := by
  intro d1
  induction d1 with
  | nil =>
    intro d2 k h1 h2 _
    simp only [List.length_nil] at h1
    have hk : k = [] := List.eq_nil_of_length_eq_zero h1.symm
    subst hk
    simp only [List.length_nil] at h2
    exact List.eq_nil_of_length_eq_zero h2
  | cons a d1 ih =>
    intro d2 k h1 h2 h
    match k, d2 with
    | [], _ => simp at h1
    | b :: k, [] => simp at h2
    | b :: k, c :: d2 =>
      simp only [List.zipWith_cons_cons, List.cons.injEq] at h
      obtain ⟨hhead, htail⟩ := h
      have hca : c = a := by
        have hhead2 : c ^^^ (a ^^^ b) = b := hhead
        have hc2 : c ^^^ (a ^^^ b) = a ^^^ (a ^^^ b) := by
          rw [hhead2, Nat.xor_cancel_left]
        exact Nat.xor_left_injective hc2
      simp only [List.length_cons] at h1 h2
      rw [hca, ih d2 k (by omega) (by omega) htail]

theorem Tag.fromBytes_short {b : List Nat} (h : b.length < 4) :
    Tag.fromBytes b = none := by
  match b with
  | [] => rfl
  | [x] => rfl
  | [x, y] => rfl
  | [x, y, z] => rfl
  | x :: y :: z :: w :: r => simp only [List.length_cons] at h; omega

theorem TagSet.parseLoop_none {rest : List Nat} (h : Tag.fromBytes rest = none) :
    TagSet.parseLoop rest = .error .endOfInput := by
  rw [TagSet.parseLoop]
  split
  · rfl
  · rename_i tag hfb
    rw [h] at hfb
    exact absurd hfb (by simp)

theorem OwnedTagSet.foldl_add_tag :
    ∀ (ts : List (List Nat)) (a : List Nat),
      ts.foldl OwnedTagSet.add_tag a = a ++ ts.flatten := by
  intro ts
  induction ts with
  | nil => intro a; simp
  | cons t ts ih =>
    intro a
    simp only [List.foldl_cons, List.flatten_cons, ih, OwnedTagSet.add_tag,
      List.append_assoc]

theorem OwnedTagSet.buildFrom_eq_flatten (tags : List (List Nat)) :
    OwnedTagSet.buildFrom tags = tags.flatten := by
  rw [OwnedTagSet.buildFrom, OwnedTagSet.foldl_add_tag, OwnedTagSet.new,
    List.nil_append]

theorem EncryptedSecretKey.to_secret_key_of_envelope (S : ScryptModel)
    (k p1 p2 salt : List Nat) (logN : Nat)
    (hk : k.length = 32) (hs : salt.length = 16) (hp : S.paramsValid logN = true) :
    EncryptedSecretKey.to_secret_key S
        (1 :: logN :: (salt ++ List.zipWith Nat.xor (S.derive p1 salt logN) k)) p2
      = .ok (List.zipWith Nat.xor (S.derive p2 salt logN)
          (List.zipWith Nat.xor (S.derive p1 salt logN) k)) := by
  have hd1 : (S.derive p1 salt logN).length = 32 := S.derive_len p1 salt logN
  have hxl : (List.zipWith Nat.xor (S.derive p1 salt logN) k).length = 32 := by
    rw [List.length_zipWith]; omega
  have hlen : (1 :: logN :: (salt ++ List.zipWith Nat.xor (S.derive p1 salt logN) k)).length
      = 50 := by
    simp only [List.length_cons, List.length_append]
    omega
  rw [EncryptedSecretKey.to_secret_key]
  rw [if_neg (by omega)]
  rw [if_neg (by simp)]
  have hgetD1 : (1 :: logN :: (salt ++ List.zipWith Nat.xor (S.derive p1 salt logN) k)).getD 1 0
      = logN := by
    simp [List.getD_cons_succ, List.getD_cons_zero]
  have hdrop2 : ((1 :: logN :: (salt ++ List.zipWith Nat.xor (S.derive p1 salt logN) k)).drop 2)
      = salt ++ List.zipWith Nat.xor (S.derive p1 salt logN) k := rfl
  have hsalt : ((salt ++ List.zipWith Nat.xor (S.derive p1 salt logN) k).take 16) = salt := by
    rw [← hs]
    exact List.take_left salt _
  have hdrop18 : ((1 :: logN :: (salt ++ List.zipWith Nat.xor (S.derive p1 salt logN) k)).drop 18)
      = List.zipWith Nat.xor (S.derive p1 salt logN) k := by
    have : (18 : Nat) = 2 + 16 := rfl
    rw [this, ← List.drop_drop, hdrop2]
    rw [← hs]
    exact List.drop_left salt _
  rw [hgetD1, hdrop2, hsalt, if_pos hp, hdrop18]

/-- Concrete instantiation of the scrypt collaborator, used to exercise
the envelope theorems on explicit inputs. -/
def scryptDemo : ScryptModel where
  paramsValid := fun n => decide (0 < n ∧ n < 64)
  derive := fun pw salt logN =>
    (List.range 32).map (fun i => (i + pw.headD 0 + salt.headD 0 + logN) % 256)
  derive_len := by
    intro pw salt logN
    simp

/-- Concrete instantiation of the z32 collaborator. -/
def z32Demo : Z32Model where
  encode := fun b => b
  decode := fun b => .ok b
  decode_encode := fun _ => rfl

/-- Concrete instantiation of the curve-validation collaborator that
accepts every 32-byte string. -/
def curveDemo : CurveModel where
  valid := fun _ => true

/-- C1: for every secret key `k` (32 bytes), password, cost parameter
accepted by the key-derivation primitive, and any 16 salt bytes the
randomness source produced, encrypting and then decrypting with the same
password succeeds and returns exactly `k`. -/
theorem encrypt_decrypt_roundtrip (S : ScryptModel) (k pw salt : List Nat)
    (logN : Nat) (hk : k.length = 32) (hs : salt.length = 16)
    (hp : S.paramsValid logN = true) :
    ∃ env, EncryptedSecretKey.from_secret_key S k pw logN salt = .ok env ∧
      EncryptedSecretKey.to_secret_key S env pw = .ok k := by
  refine ⟨1 :: logN :: (salt ++ List.zipWith Nat.xor (S.derive pw salt logN) k), ?_, ?_⟩
  · rw [EncryptedSecretKey.from_secret_key, if_pos hp]
  · rw [EncryptedSecretKey.to_secret_key_of_envelope S k pw pw salt logN hk hs hp]
    rw [zipWith_xor_cancel (S.derive pw salt logN) k (by rw [S.derive_len, hk])]

theorem encrypt_decrypt_roundtrip_witness :
    (List.replicate 32 7 : List Nat).length = 32 ∧
    (List.replicate 16 3 : List Nat).length = 16 ∧
    scryptDemo.paramsValid 10 = true ∧
    ∃ env,
      EncryptedSecretKey.from_secret_key scryptDemo (List.replicate 32 7) [5] 10
          (List.replicate 16 3) = .ok env ∧
      EncryptedSecretKey.to_secret_key scryptDemo env [5] = .ok (List.replicate 32 7) :=
  ⟨by decide, by decide, by decide,
    encrypt_decrypt_roundtrip scryptDemo (List.replicate 32 7) [5]
      (List.replicate 16 3) 10 (by decide) (by decide) (by decide)⟩

/-- C3: decrypting an envelope with a different password `p2` raises no
error — there is no integrity or password check beyond the length and
version guards — and, whenever the key-derivation primitive maps the two
passwords to different derived keys for the stored salt (the defining
property of the scrypt collaborator on distinct passwords), the returned
secret key differs from the original `k`. -/
theorem wrong_password_decrypt (S : ScryptModel) (k p1 p2 salt : List Nat)
    (logN : Nat) (hk : k.length = 32) (hs : salt.length = 16)
    (hp : S.paramsValid logN = true) (hpw : p1 ≠ p2)
    (hd : S.derive p2 salt logN ≠ S.derive p1 salt logN) :
    ∃ env k2, EncryptedSecretKey.from_secret_key S k p1 logN salt = .ok env ∧
      EncryptedSecretKey.to_secret_key S env p2 = .ok k2 ∧ k2 ≠ k := by
  refine ⟨1 :: logN :: (salt ++ List.zipWith Nat.xor (S.derive p1 salt logN) k),
    List.zipWith Nat.xor (S.derive p2 salt logN)
      (List.zipWith Nat.xor (S.derive p1 salt logN) k), ?_, ?_, ?_⟩
  · rw [EncryptedSecretKey.from_secret_key, if_pos hp]
  · exact EncryptedSecretKey.to_secret_key_of_envelope S k p1 p2 salt logN hk hs hp
  · intro hcontra
    exact hd (zipWith_xor_inj (S.derive p1 salt logN) (S.derive p2 salt logN) k
      (by rw [S.derive_len, hk]) (by rw [S.derive_len, hk]) hcontra)

theorem wrong_password_decrypt_witness :
    (List.replicate 32 7 : List Nat).length = 32 ∧
    (List.replicate 16 3 : List Nat).length = 16 ∧
    scryptDemo.paramsValid 10 = true ∧
    ([0] : List Nat) ≠ [1] ∧
    scryptDemo.derive [1] (List.replicate 16 3) 10
      ≠ scryptDemo.derive [0] (List.replicate 16 3) 10 ∧
    ∃ env k2,
      EncryptedSecretKey.from_secret_key scryptDemo (List.replicate 32 7) [0] 10
          (List.replicate 16 3) = .ok env ∧
      EncryptedSecretKey.to_secret_key scryptDemo env [1] = .ok k2 ∧
      k2 ≠ List.replicate 32 7 :=
  ⟨by decide, by decide, by decide, by decide, by decide,
    wrong_password_decrypt scryptDemo (List.replicate 32 7) [0] [1]
      (List.replicate 16 3) 10 (by decide) (by decide) (by decide) (by decide)
      (by decide)⟩

/-- C5: decryption fails exactly when the envelope length differs from
50 (`BadEncryptedSecretKey`), or the length is 50 and the version byte
is not 1 (`UnsupportedEncryptedSecretKeyVersion` carrying that byte), or
both guards pass and the stored cost byte is rejected by the
key-derivation primitive; the length guard fires before the version
guard, and the error behaviour is identical for every password. -/
theorem decrypt_error_characterization (S : ScryptModel)
    (env pw pw2 : List Nat) (e : Error) :
    (EncryptedSecretKey.to_secret_key S env pw = .error e ↔
      (env.length ≠ 50 ∧ e = .badEncryptedSecretKey) ∨
      (env.length = 50 ∧ env.getD 0 0 ≠ 1 ∧
        e = .unsupportedEncryptedSecretKeyVersion (env.getD 0 0)) ∨
      (env.length = 50 ∧ env.getD 0 0 = 1 ∧
        S.paramsValid (env.getD 1 0) = false ∧ e = .scryptParams)) ∧
    (EncryptedSecretKey.to_secret_key S env pw = .error e ↔
      EncryptedSecretKey.to_secret_key S env pw2 = .error e) := by
  simp only [EncryptedSecretKey.to_secret_key]
  split_ifs with h50 hv hpar
  · refine ⟨?_, Iff.rfl⟩
    constructor
    · intro h
      injection h with h
      exact Or.inl ⟨h50, h.symm⟩
    · rintro (⟨_, h⟩ | ⟨h, _, _⟩ | ⟨h, _, _, _⟩)
      · rw [h]
      · exact absurd h h50
      · exact absurd h h50
  · refine ⟨?_, Iff.rfl⟩
    constructor
    · intro h
      injection h with h
      exact Or.inr (Or.inl ⟨by omega, hv, h.symm⟩)
    · rintro (⟨h, _⟩ | ⟨_, _, h⟩ | ⟨_, h, _, _⟩)
      · exact absurd (by omega) h
      · rw [h]
      · exact absurd h hv
  · refine ⟨?_, Iff.rfl⟩
    constructor
    · intro h
      exact absurd h (by simp)
    · rintro (⟨h, _⟩ | ⟨_, h, _⟩ | ⟨_, _, h, _⟩)
      · exact absurd (by omega) h
      · exact absurd h hv
      · rw [hpar] at h
        exact absurd h (by simp)
  · refine ⟨?_, Iff.rfl⟩
    constructor
    · intro h
      injection h with h
      refine Or.inr (Or.inr ⟨by omega, ?_, ?_, h.symm⟩)
      · by_contra hc
        exact hv hc
      · rw [Bool.not_eq_true] at hpar
        exact hpar
    · rintro (⟨h, _⟩ | ⟨_, h, _⟩ | ⟨_, _, _, h⟩)
      · exact absurd (by omega) h
      · exact absurd h hv
      · rw [h]

theorem decrypt_error_characterization_witness :
    EncryptedSecretKey.to_secret_key scryptDemo [2] [9]
      = .error .badEncryptedSecretKey :=
  ((decrypt_error_characterization scryptDemo [2] [9] [8]
    .badEncryptedSecretKey).1).mpr (Or.inl ⟨by decide, rfl⟩)

/-- C7: for every curve-valid 32-byte public key, `from_printable` of
its printable form succeeds and returns the same key; conversely
`from_printable` fails with `InvalidPrintable` when the input does not
start with the fixed text head, with `KeyLength` when the head matches
but the decoded body is not exactly 32 bytes, and with the
curve-validation error `InvalidKey` when the 32 decoded bytes are not a
valid curve point. -/
theorem pubkey_printable_roundtrip (Z : Z32Model) (C : CurveModel)
    (k s bytes : List Nat) (hv : C.valid k = true) (hk : k.length = 32) :
    PublicKey.from_printable Z C (PublicKey.printable Z k) = .ok k ∧
    (startsWith moPubBytes s = false →
      PublicKey.from_printable Z C s = .error .invalidPrintable) ∧
    (startsWith moPubBytes s = true → Z.decode (s.drop 6) = .ok bytes →
      bytes.length ≠ 32 →
      PublicKey.from_printable Z C s = .error .keyLength) ∧
    (startsWith moPubBytes s = true → Z.decode (s.drop 6) = .ok bytes →
      bytes.length = 32 → C.valid bytes = false →
      PublicKey.from_printable Z C s = .error .invalidKey) := by
  refine ⟨?_, ?_, ?_, ?_⟩
  · rw [PublicKey.printable, PublicKey.from_printable]
    have hstart : startsWith moPubBytes (moPubBytes ++ Z.encode k) = true := by
      rw [startsWith, List.take_left]
      exact beq_self_eq_true moPubBytes
    rw [hstart]
    have hdrop : (moPubBytes ++ Z.encode k).drop 6 = Z.encode k := by
      rw [show (6 : Nat) = moPubBytes.length from rfl]
      exact List.drop_left moPubBytes _
    rw [if_neg (by simp)]
    rw [hdrop, Z.decode_encode k]
    show (if k.length = 32 then PublicKey.from_bytes C k
      else Except.error Error.keyLength) = Except.ok k
    rw [if_pos hk, PublicKey.from_bytes, if_pos hv]
  · intro hns
    rw [PublicKey.from_printable, if_pos (by rw [hns])]
  · intro hs hdec hlen
    rw [PublicKey.from_printable, if_neg (by rw [hs]; simp), hdec]
    show (if bytes.length = 32 then PublicKey.from_bytes C bytes
      else Except.error Error.keyLength) = Except.error Error.keyLength
    rw [if_neg hlen]
  · intro hs hdec hlen hcv
    rw [PublicKey.from_printable, if_neg (by rw [hs]; simp), hdec]
    show (if bytes.length = 32 then PublicKey.from_bytes C bytes
      else Except.error Error.keyLength) = Except.error Error.invalidKey
    rw [if_pos hlen, PublicKey.from_bytes, if_neg (by rw [hcv]; simp)]

theorem pubkey_printable_roundtrip_witness :
    curveDemo.valid (List.replicate 32 9) = true ∧
    (List.replicate 32 9 : List Nat).length = 32 ∧
    PublicKey.from_printable z32Demo curveDemo
      (PublicKey.printable z32Demo (List.replicate 32 9)) = .ok (List.replicate 32 9) :=
  ⟨by decide, by decide,
    (pubkey_printable_roundtrip z32Demo curveDemo (List.replicate 32 9) [] []
      (by decide) (by decide)).1⟩

/-- C2 counterexample: the empty buffer is a concatenation of zero tag
records (as `OwnedTagSet::new()` produces), yet `TagSet::from_bytes`
rejects it with `EndOfInput` because of the explicit minimum-length
gate, refuting the zero-or-more acceptance claim. -/
theorem from_bytes_rejects_empty :
    TagConcat [] ∧ TagSet.from_bytes [] = .error .endOfInput :=
  ⟨TagConcat.nil, rfl⟩

/-- C2 (amended): `TagSet::from_bytes` succeeds exactly on buffers that
are an exact back-to-back concatenation of one-or-more valid tag
records; the empty buffer is rejected with `EndOfInput`, and so is
every buffer of length 1, 2 or 3. -/
theorem from_bytes_characterization (b : List Nat) :
    (TagSet.from_bytes b = .ok b ↔ TagConcat b ∧ b ≠ []) ∧
    TagSet.from_bytes [] = .error .endOfInput ∧
    (b.length = 1 ∨ b.length = 2 ∨ b.length = 3 →
      TagSet.from_bytes b = .error .endOfInput) := by
  refine ⟨TagSet.from_bytes_ok_iff b, rfl, ?_⟩
  intro hlen
  rcases hlen with h | h | h
  · rw [TagSet.from_bytes, if_pos (by omega)]
  · rw [TagSet.from_bytes, if_pos (by omega)]
  · rw [TagSet.from_bytes, if_neg (by omega),
      TagSet.parseLoop_none (Tag.fromBytes_short (by omega))]

theorem from_bytes_characterization_witness :
    TagSet.from_bytes [0, 0, 0] = .error .endOfInput :=
  (from_bytes_characterization [0, 0, 0]).2.2 (by decide)

/-- C4: on any buffer accepted by `TagSet::from_bytes`, iterating the
resulting view runs to completion — the internal
`Tag::from_bytes(..).unwrap()` in `TagSetIter::next` never reaches its
panic branch, and the iterator yields a finite tag list before
returning `None`. -/
theorem validated_iteration_never_panics (b r : List Nat)
    (h : TagSet.from_bytes b = .ok r) :
    ∃ ts, TagSet.iterAll b = some ts := by
  have hrb := TagSet.from_bytes_ok_eq h
  rw [hrb] at h
  obtain ⟨hc, _⟩ := (TagSet.from_bytes_ok_iff b).mp h
  obtain ⟨ts, hflat, hall⟩ := tagConcat_exists hc
  exact ⟨ts, hflat ▸ TagSet.iterAll_flatten ts hall⟩

theorem validated_iteration_never_panics_witness :
    TagSet.from_bytes [5, 0, 0, 0, 9] = .ok [5, 0, 0, 0, 9] ∧
    ∃ ts, TagSet.iterAll [5, 0, 0, 0, 9] = some ts := by
  have hok : TagSet.from_bytes [5, 0, 0, 0, 9] = .ok [5, 0, 0, 0, 9] :=
    (TagSet.from_bytes_ok_iff [5, 0, 0, 0, 9]).mpr
      ⟨show TagConcat ([5, 0, 0, 0, 9] ++ []) from
        TagConcat.cons (by decide) TagConcat.nil, by decide⟩
  exact ⟨hok, validated_iteration_never_panics [5, 0, 0, 0, 9] [5, 0, 0, 0, 9] hok⟩

/-- C6: building an owned tag set from `new()` followed by any sequence
of `add_tag` calls makes the backing buffer exactly the concatenation of
the appended tags' encoded bytes in append order, and iterating the set
yields exactly those tags in that order, ending with `None` and never
reaching the panic branch. -/
theorem owned_tagset_build_iterate (tags : List (List Nat))
    (h : ∀ t ∈ tags, IsTag t) :
    OwnedTagSet.buildFrom tags = tags.flatten ∧
    TagSet.iterAll (OwnedTagSet.buildFrom tags) = some tags := by
  have hb := OwnedTagSet.buildFrom_eq_flatten tags
  exact ⟨hb, hb ▸ TagSet.iterAll_flatten tags h⟩

theorem owned_tagset_build_iterate_witness :
    (∀ t ∈ ([[4, 0, 0, 0], [5, 0, 1, 0, 9]] : List (List Nat)), IsTag t) ∧
    OwnedTagSet.buildFrom [[4, 0, 0, 0], [5, 0, 1, 0, 9]]
      = [4, 0, 0, 0, 5, 0, 1, 0, 9] ∧
    TagSet.iterAll (OwnedTagSet.buildFrom [[4, 0, 0, 0], [5, 0, 1, 0, 9]])
      = some [[4, 0, 0, 0], [5, 0, 1, 0, 9]] := by
  have hall : ∀ t ∈ ([[4, 0, 0, 0], [5, 0, 1, 0, 9]] : List (List Nat)), IsTag t := by
    decide
  have := owned_tagset_build_iterate [[4, 0, 0, 0], [5, 0, 1, 0, 9]] hall
  exact ⟨hall, this.1, this.2⟩

/-- C8: appending one extra byte after any buffer accepted by
`TagSet::from_bytes` makes parsing fail (with `EndOfInput` from the
final truncated record) instead of ignoring the trailing byte. -/
theorem trailing_byte_rejected (b : List Nat) (x : Nat)
    (h : TagSet.from_bytes b = .ok b) :
    TagSet.from_bytes (b ++ [x]) = .error .endOfInput := by
  obtain ⟨hc, hne⟩ := (TagSet.from_bytes_ok_iff b).mp h
  have h4 := tagConcat_length hc hne
  have hpl : TagSet.parseLoop (b ++ [x]) = .error .endOfInput := by
    rw [TagSet.parseLoop_append hc (by simp)]
    exact TagSet.parseLoop_none (Tag.fromBytes_short (by simp))
  rw [TagSet.from_bytes, if_neg (by rw [List.length_append]; simp; omega), hpl]

theorem trailing_byte_rejected_witness :
    TagSet.from_bytes ([4, 0, 0, 0] ++ [7]) = .error .endOfInput :=
  trailing_byte_rejected [4, 0, 0, 0] 7
    ((TagSet.from_bytes_ok_iff [4, 0, 0, 0]).mpr
      ⟨show TagConcat ([4, 0, 0, 0] ++ []) from
        TagConcat.cons (by decide) TagConcat.nil, by decide⟩)

/-- The 25-byte example buffer from the spec's concrete tag-set case. -/
def exBytes : List Nat :=
  [8, 0, 1, 0, 10, 9, 8, 7,
   10, 0, 2, 0, 1, 2, 3, 4, 5, 6,
   7, 0, 3, 1, 3, 4, 5]

/-- First record of the example buffer. -/
def exTag1 : List Nat := [8, 0, 1, 0, 10, 9, 8, 7]

/-- Second record of the example buffer. -/
def exTag2 : List Nat := [10, 0, 2, 0, 1, 2, 3, 4, 5, 6]

/-- Third record of the example buffer. -/
def exTag3 : List Nat := [7, 0, 3, 1, 3, 4, 5]

/-- C9: the concrete 25-byte sequence parses as a tag set, iterating it
yields exactly the three records with types 1, 2 and 259 and payloads
`[0A 09 08 07]`, `[01 02 03 04 05 06]` and `[03 04 05]` in that order,
and then the iterator finishes. -/
theorem concrete_tagset_example :
    TagSet.from_bytes exBytes = .ok exBytes ∧
    TagSet.iterAll exBytes = some [exTag1, exTag2, exTag3] ∧
    Tag.get_type exTag1 = 1 ∧ Tag.data_bytes exTag1 = [10, 9, 8, 7] ∧
    Tag.get_type exTag2 = 2 ∧ Tag.data_bytes exTag2 = [1, 2, 3, 4, 5, 6] ∧
    Tag.get_type exTag3 = 259 ∧ Tag.data_bytes exTag3 = [3, 4, 5] := by
  have hall : ∀ t ∈ [exTag1, exTag2, exTag3], IsTag t := by decide
  have hflat : ([exTag1, exTag2, exTag3] : List (List Nat)).flatten = exBytes := by decide
  have hconcat : TagConcat exBytes := by
    have h3 : TagConcat (exTag3 ++ []) := TagConcat.cons (by decide) TagConcat.nil
    have h2 : TagConcat (exTag2 ++ (exTag3 ++ [])) := TagConcat.cons (by decide) h3
    have h1 : TagConcat (exTag1 ++ (exTag2 ++ (exTag3 ++ []))) :=
      TagConcat.cons (by decide) h2
    have heq : exBytes = exTag1 ++ (exTag2 ++ (exTag3 ++ [])) := by decide
    rw [heq]
    exact h1
  refine ⟨?_, ?_, by decide, by decide, by decide, by decide, by decide, by decide⟩
  · exact (TagSet.from_bytes_ok_iff exBytes).mpr ⟨hconcat, by decide⟩
  · rw [← hflat]
    exact TagSet.iterAll_flatten [exTag1, exTag2, exTag3] hall
